import Mathlib

/-!
Verification of the `crypto-bite` blockchain core (`src/crypto-bite.rs`).

The Rust source is shallowly embedded: machine integers become `Nat`
(with explicit reduction modulo `2 ^ 32` inside the hash function, the one
place where wraparound matters), `Vec` becomes `List`, the ambient clock
`Utc::now().timestamp()` becomes an explicit `now : Int` argument, and the
panicking `unwrap` on `chain.last()` becomes an `Option` result.
Floating-point transfer amounts are never computed with by the program —
they are only stored and Debug-printed into the hash preimage — so the
`amount : f64` field is embedded as the decimal text its `Debug` rendering
produces.
-/

/-! ## SHA-256 (the `sha2::Sha256` function used by the source) -/

/-- Reduction of a word to 32 bits. -/
def w32 (n : Nat) : Nat := n % 4294967296

/-- Right rotation of a 32-bit word by `n` places. -/
def rotr32 (n x : Nat) : Nat := w32 ((x >>> n) ||| (x <<< (32 - n)))

/-- Big sigma-0 of SHA-256. -/
def bsig0 (x : Nat) : Nat := rotr32 2 x ^^^ rotr32 13 x ^^^ rotr32 22 x

/-- Big sigma-1 of SHA-256. -/
def bsig1 (x : Nat) : Nat := rotr32 6 x ^^^ rotr32 11 x ^^^ rotr32 25 x

/-- Small sigma-0 of SHA-256. -/
def ssig0 (x : Nat) : Nat := rotr32 7 x ^^^ rotr32 18 x ^^^ (x >>> 3)

/-- Small sigma-1 of SHA-256. -/
def ssig1 (x : Nat) : Nat := rotr32 17 x ^^^ rotr32 19 x ^^^ (x >>> 10)

/-- The choice function of SHA-256; complement is xor with the all-ones word. -/
def chF (x y z : Nat) : Nat := (x &&& y) ^^^ ((x ^^^ 4294967295) &&& z)

/-- The majority function of SHA-256. -/
def majF (x y z : Nat) : Nat := (x &&& y) ^^^ (x &&& z) ^^^ (y &&& z)

/-- The 64 SHA-256 round constants of FIPS 180-4, written in decimal. -/
def k256 : List Nat :=
  [1116352408, 1899447441, 3049323471, 3921009573, 961987163, 1508970993,
   2453635748, 2870763221, 3624381080, 310598401, 607225278, 1426881987,
   1925078388, 2162078206, 2614888103, 3248222580, 3835390401, 4022224774,
   264347078, 604807628, 770255983, 1249150122, 1555081692, 1996064986,
   2554220882, 2821834349, 2952996808, 3210313671, 3336571891, 3584528711,
   113926993, 338241895, 666307205, 773529912, 1294757372, 1396182291,
   1695183700, 1986661051, 2177026350, 2456956037, 2730485921, 2820302411,
   3259730800, 3345764771, 3516065817, 3600352804, 4094571909, 275423344,
   430227734, 506948616, 659060556, 883997877, 958139571, 1322822218,
   1537002063, 1747873779, 1955562222, 2024104815, 2227730452, 2361852424,
   2428436474, 2756734187, 3204031479, 3329325298]

/-- An eight-word SHA-256 state. -/
structure Hash8 where
  e0 : Nat
  e1 : Nat
  e2 : Nat
  e3 : Nat
  e4 : Nat
  e5 : Nat
  e6 : Nat
  e7 : Nat
deriving DecidableEq, Repr

/-- The SHA-256 initial state of FIPS 180-4, written in decimal. -/
def initH : Hash8 :=
  ⟨1779033703, 3144134277, 1013904242, 2773480762,
   1359893119, 2600822924, 528734635, 1541459225⟩

/-- One SHA-256 round; `kw` is the round constant already added to the schedule word. -/
def shaRound (st : Hash8) (kw : Nat) : Hash8 :=
  let t1 := w32 (st.e7 + bsig1 st.e4 + chF st.e4 st.e5 st.e6 + kw)
  let t2 := w32 (bsig0 st.e0 + majF st.e0 st.e1 st.e2)
  ⟨w32 (t1 + t2), st.e0, st.e1, st.e2, w32 (st.e3 + t1), st.e4, st.e5, st.e6⟩

/-- Groups a byte list into big-endian 32-bit words. -/
def wordsBE : List Nat → List Nat
  | b0 :: b1 :: b2 :: b3 :: rest => (((b0 * 256 + b1) * 256 + b2) * 256 + b3) :: wordsBE rest
  | _ => []

/-- Extends the message schedule; `acc` holds the words computed so far, newest first. -/
def extendW : Nat → List Nat → List Nat
  | 0, acc => acc.reverse
  | n + 1, acc =>
    extendW n
      (w32 (ssig1 (acc.getD 1 0) + acc.getD 6 0 + ssig0 (acc.getD 14 0) + acc.getD 15 0) :: acc)

/-- The 64-word message schedule of one 64-byte block. -/
def schedule (block : List Nat) : List Nat := extendW 48 (wordsBE block).reverse

/-- Compression of one 64-byte block into the running state. -/
def shaCompress (st : Hash8) (block : List Nat) : Hash8 :=
  let t := List.foldl shaRound st (List.zipWith (fun k w => w32 (k + w)) k256 (schedule block))
  ⟨w32 (st.e0 + t.e0), w32 (st.e1 + t.e1), w32 (st.e2 + t.e2), w32 (st.e3 + t.e3),
   w32 (st.e4 + t.e4), w32 (st.e5 + t.e5), w32 (st.e6 + t.e6), w32 (st.e7 + t.e7)⟩

/-- The `n` big-endian bytes of `v`. -/
def bytesBE : Nat → Nat → List Nat
  | 0, _ => []
  | n + 1, v => bytesBE n (v / 256) ++ [v % 256]

/-- SHA-256 padding: a `0x80` byte, zeros to 56 mod 64, then the 8-byte bit length. -/
def padMsg (msg : List Nat) : List Nat :=
  msg ++ 0x80 :: (List.replicate ((119 - msg.length % 64) % 64) 0 ++ bytesBE 8 (msg.length * 8))

/-- Folds the compression function over `n` consecutive 64-byte blocks. -/
def shaBlocks : Nat → Hash8 → List Nat → Hash8
  | 0, st, _ => st
  | n + 1, st, msg => shaBlocks n (shaCompress st (msg.take 64)) (msg.drop 64)

/-- The SHA-256 digest of a byte list, as a list of 32 bytes. -/
def sha256 (msg : List Nat) : List Nat :=
  let p := padMsg msg
  let st := shaBlocks (p.length / 64) initH p
  bytesBE 4 st.e0 ++ bytesBE 4 st.e1 ++ bytesBE 4 st.e2 ++ bytesBE 4 st.e3 ++
  bytesBE 4 st.e4 ++ bytesBE 4 st.e5 ++ bytesBE 4 st.e6 ++ bytesBE 4 st.e7

/-! ## Text encoding helpers (Rust `format!` and `.as_bytes()`) -/

/-- The lowercase hexadecimal digit of a value below 16, as printed by Rust `{:x}`. -/
def hexChar (n : Nat) : Char := if n < 10 then Char.ofNat (48 + n) else Char.ofNat (87 + n)

/-- The lowercase hexadecimal rendering of a byte list, two digits per byte. -/
def hexOfBytes : List Nat → List Char
  | [] => []
  | b :: bs => hexChar (b / 16 % 16) :: hexChar (b % 16) :: hexOfBytes bs

/-- The hexadecimal digest string `format!("\x7b:x\x7d", digest)` of the source. -/
def hexStr (bs : List Nat) : String := ⟨hexOfBytes bs⟩

/-- The UTF-8 encoding of one character. -/
def utf8Encode (c : Char) : List Nat :=
  let n := c.toNat
  if n < 0x80 then [n]
  else if n < 0x800 then [0xC0 ||| (n >>> 6), 0x80 ||| (n &&& 0x3F)]
  else if n < 0x10000 then
    [0xE0 ||| (n >>> 12), 0x80 ||| ((n >>> 6) &&& 0x3F), 0x80 ||| (n &&& 0x3F)]
  else
    [0xF0 ||| (n >>> 18), 0x80 ||| ((n >>> 12) &&& 0x3F), 0x80 ||| ((n >>> 6) &&& 0x3F),
     0x80 ||| (n &&& 0x3F)]

/-- The UTF-8 bytes of a string, Rust `str::as_bytes`. -/
def strBytes (s : String) : List Nat := s.data.flatMap utf8Encode

/-- Decimal rendering of an `i64` value, Rust `{}` on a signed integer. -/
def i64Repr (i : Int) : String :=
  if i < 0 then "-" ++ Nat.repr i.natAbs else Nat.repr i.natAbs

/-- Rust `str::starts_with` on string literals: prefix test on the characters. -/
def strStartsWith (s p : String) : Bool := List.isPrefixOf p.data s.data

/-! ## Data model (`Transaction`, `Block`, `Blockchain`) -/

/-- Rust `Transaction`; `amount` holds the decimal text of the `f64` Debug rendering. -/
structure Transaction where
  sender : String
  recipient : String
  amount : String
deriving DecidableEq, Repr

/-- Rust `Block`. -/
structure Block where
  index : Nat
  timestamp : Int
  transactions : List Transaction
  proof : Nat
  previous_hash : String
deriving DecidableEq, Repr

/-- The escapes performed by Rust string Debug output for the common characters
(quote, backslash, newline, tab, carriage return; other characters pass through). -/
def escapeChar (c : Char) : List Char :=
  if c = '"' then ['\\', '"']
  else if c = '\\' then ['\\', '\\']
  else if c = '\n' then ['\\', 'n']
  else if c = '\t' then ['\\', 't']
  else if c = '\r' then ['\\', 'r']
  else [c]

/-- Rust Debug output of a `String`: quoted and escaped. -/
def debugStr (s : String) : String := ⟨'"' :: (s.data.flatMap escapeChar ++ ['"'])⟩

/-- Rust derived Debug output of one `Transaction`. -/
def Transaction.debugFmt (t : Transaction) : String :=
  "Transaction \x7b sender: " ++ debugStr t.sender ++ ", recipient: " ++ debugStr t.recipient ++
    ", amount: " ++ t.amount ++ " \x7d"

/-- Rust Debug output of `Vec<Transaction>`. -/
def debugTxList (ts : List Transaction) : String :=
  "[" ++ String.intercalate ", " (ts.map Transaction.debugFmt) ++ "]"

/-- The preimage string built by `calculate_hash`:
`format!("\x7b\x7d\x7b\x7d\x7b:?\x7d\x7b\x7d\x7b\x7d", index, timestamp, transactions, proof, previous_hash)`. -/
def Block.serialize (b : Block) : String :=
  Nat.repr b.index ++ i64Repr b.timestamp ++ debugTxList b.transactions ++ Nat.repr b.proof ++
    b.previous_hash

/-- Rust `Block::calculate_hash`: SHA-256 of the serialized fields, in lowercase hex. -/
def Block.calculate_hash (b : Block) : String := hexStr (sha256 (strBytes b.serialize))

/-- Rust `Block::new`; the ambient clock read `Utc::now().timestamp()` is the
explicit `now` argument. -/
def Block.new (index : Nat) (now : Int) (transactions : List Transaction) (proof : Nat)
    (previous_hash : String) : Block :=
  ⟨index, now, transactions, proof, previous_hash⟩

/-- Rust `Blockchain`. -/
structure Blockchain where
  chain : List Block
  current_transactions : List Transaction
deriving DecidableEq, Repr

/-- Rust `Blockchain::new`: a chain holding only the genesis block, an empty pool. -/
def Blockchain.new (now : Int) : Blockchain :=
  ⟨[Block.new 0 now [] 100 "0"], []⟩

/-- Rust `Blockchain::last_block`; the panicking `unwrap` becomes `Option`. -/
def Blockchain.last_block (s : Blockchain) : Option Block := s.chain.getLast?

/-- Rust `Blockchain::new_transaction`: push the transfer, then return
`last_block().index as usize + 1`; `none` models the panic on an empty chain. -/
def Blockchain.new_transaction (s : Blockchain) (sender recipient amount : String) :
    Option (Nat × Blockchain) :=
  let s' : Blockchain :=
    ⟨s.chain, s.current_transactions ++ [⟨sender, recipient, amount⟩]⟩
  match s'.last_block with
  | none => none
  | some b => some (b.index + 1, s')

/-- Rust `Blockchain::new_block`: hash the last block, build a block at index
`chain.len()` carrying the whole pool (`mem::take` empties it), append, return it. -/
def Blockchain.new_block (s : Blockchain) (proof : Nat) (now : Int) :
    Option (Block × Blockchain) :=
  match s.last_block with
  | none => none
  | some last =>
    let previous_hash := last.calculate_hash
    let block := Block.new s.chain.length now s.current_transactions proof previous_hash
    some (block, ⟨s.chain ++ [block], []⟩)

/-- Rust `Blockchain::valid_proof` (its `&self` receiver is unused in the source):
SHA-256 of the concatenated decimal texts must render with four leading zero digits. -/
def valid_proof (last_proof proof : Nat) : Bool :=
  let guess := Nat.repr last_proof ++ Nat.repr proof
  let guess_hash := sha256 (strBytes guess)
  let result := hexStr guess_hash
  strStartsWith result "0000"

/-- The loop body of Rust `Blockchain::proof_of_work`, with explicit fuel standing
for the unbounded `while`; `proof` is the loop counter starting at 0. -/
def pow_loop (last_proof : Nat) : Nat → Nat → Option Nat
  | 0, _ => none
  | fuel + 1, proof => if valid_proof last_proof proof then some proof else
      pow_loop last_proof fuel (proof + 1)

/-- Rust `Blockchain::proof_of_work` run with the given fuel bound. -/
def proof_of_work (last_proof fuel : Nat) : Option Nat := pow_loop last_proof fuel 0

/-- The states of a `Blockchain` reachable from `Blockchain::new` by any sequence of
`new_transaction` and `new_block` calls, at arbitrary clock readings. -/
inductive Reachable : Blockchain → Prop
  | init (now : Int) : Reachable (Blockchain.new now)
  | tx {s : Blockchain} (sender recipient amount : String) {n : Nat} {s' : Blockchain} :
      Reachable s → s.new_transaction sender recipient amount = some (n, s') → Reachable s'
  | blk {s : Blockchain} (proof : Nat) (now : Int) {b : Block} {s' : Blockchain} :
      Reachable s → s.new_block proof now = some (b, s') → Reachable s'

/-- The process of calling `new_transaction` once per listed transfer, left to right. -/
def queueMany : Blockchain → List Transaction → Option Blockchain
  | s, [] => some s
  | s, t :: ts =>
    match s.new_transaction t.sender t.recipient t.amount with
    | none => none
    | some (_, s') => queueMany s' ts

/-! ## Helper lemmas -/

lemma getLast?_of_ne_nil {α : Type} (l : List α) (h : l ≠ []) :
    ∃ a, l.getLast? = some a := by
  rw [List.getLast?_eq_getLast_of_ne_nil h]
  exact ⟨_, rfl⟩

lemma new_transaction_eq (s : Blockchain) (sender recipient amount : String)
    (h : s.chain ≠ []) :
    s.new_transaction sender recipient amount =
      some ((s.chain.getLast h).index + 1,
        ⟨s.chain, s.current_transactions ++ [⟨sender, recipient, amount⟩]⟩) := by
  simp only [Blockchain.new_transaction, Blockchain.last_block]
  rw [List.getLast?_eq_getLast_of_ne_nil h]

lemma new_block_eq (s : Blockchain) (proof : Nat) (now : Int) (h : s.chain ≠ []) :
    s.new_block proof now =
      some (Block.new s.chain.length now s.current_transactions proof
              (s.chain.getLast h).calculate_hash,
            ⟨s.chain ++ [Block.new s.chain.length now s.current_transactions proof
              (s.chain.getLast h).calculate_hash], []⟩) := by
  unfold Blockchain.new_block Blockchain.last_block
  rw [List.getLast?_eq_getLast_of_ne_nil h]

lemma new_transaction_some (s : Blockchain) (sender recipient amount : String) (n : Nat)
    (s' : Blockchain) (h : s.new_transaction sender recipient amount = some (n, s')) :
    s'.chain = s.chain ∧
      s'.current_transactions = s.current_transactions ++ [⟨sender, recipient, amount⟩] := by
  unfold Blockchain.new_transaction Blockchain.last_block at h
  cases hg : (s.chain : List Block).getLast? with
  | none => simp [hg] at h
  | some b =>
    simp only [hg] at h
    cases h
    exact ⟨rfl, rfl⟩

lemma new_block_some (s : Blockchain) (proof : Nat) (now : Int) (b : Block)
    (s' : Blockchain) (h : s.new_block proof now = some (b, s')) :
    ∃ last, s.chain.getLast? = some last ∧
      b = Block.new s.chain.length now s.current_transactions proof last.calculate_hash ∧
      s' = ⟨s.chain ++ [b], []⟩ := by
  unfold Blockchain.new_block Blockchain.last_block at h
  cases hg : (s.chain : List Block).getLast? with
  | none => simp [hg] at h
  | some last =>
    simp only [hg] at h
    cases h
    exact ⟨last, rfl, rfl, rfl⟩

lemma queueMany_chain_pool (ts : List Transaction) :
    ∀ (s s' : Blockchain), queueMany s ts = some s' →
      s'.chain = s.chain ∧ s'.current_transactions = s.current_transactions ++ ts := by
  induction ts with
  | nil =>
    intro s s' h
    simp only [queueMany] at h
    cases h
    exact ⟨rfl, by simp⟩
  | cons t ts ih =>
    intro s s' h
    simp only [queueMany] at h
    cases hnt : s.new_transaction t.sender t.recipient t.amount with
    | none => rw [hnt] at h; cases h
    | some p =>
      obtain ⟨n, s₁⟩ := p
      rw [hnt] at h
      obtain ⟨hc, hp⟩ := new_transaction_some s t.sender t.recipient t.amount n s₁ hnt
      obtain ⟨hc', hp'⟩ := ih s₁ s' h
      refine ⟨by rw [hc', hc], ?_⟩
      rw [hp', hp, List.append_assoc]
      rfl

/-! ## Claim theorems, first batch -/

/-- Claim C2: a fresh `Blockchain::new` has a single genesis block with index 0, no
transfers, proof 100 and previous hash "0", and an empty pending pool. -/
theorem genesis_spec (now : Int) :
    (Blockchain.new now).chain.length = 1 ∧
    (Blockchain.new now).current_transactions = [] ∧
    ∃ g, (Blockchain.new now).chain = [g] ∧ g.index = 0 ∧ g.transactions = [] ∧
      g.proof = 100 ∧ g.previous_hash = "0" :=
  ⟨rfl, rfl, Block.new 0 now [] 100 "0", rfl, rfl, rfl, rfl, rfl⟩

/-- Claim C10: `valid_proof` only sees the concatenated decimal texts, so argument
pairs with equal concatenations are indistinguishable to it. -/
theorem valid_proof_concat_collision (a b c d : Nat)
    (h : Nat.repr a ++ Nat.repr b = Nat.repr c ++ Nat.repr d) :
    valid_proof a b = valid_proof c d := by
  unfold valid_proof
  rw [h]

/-- Witness for C10 at the pairs (1, 23) and (12, 3), both serializing to "123". -/
theorem valid_proof_concat_collision_witness :
    Nat.repr 1 ++ Nat.repr 23 = Nat.repr 12 ++ Nat.repr 3 ∧
      valid_proof 1 23 = valid_proof 12 3 :=
  ⟨by decide, valid_proof_concat_collision 1 23 12 3 (by decide)⟩

/-- Claim C7: on any state with a nonempty chain, `new_block` accepts every proof
value without validation, appends a block carrying it whose index is the old chain
length, and returns exactly the new last element of the chain. -/
theorem new_block_no_validation (s : Blockchain) (proof : Nat) (now : Int)
    (h : s.chain ≠ []) :
    ∃ b s', s.new_block proof now = some (b, s') ∧ b.proof = proof ∧
      b.index = s.chain.length ∧ s'.chain = s.chain ++ [b] ∧
      s'.chain.getLast? = some b ∧ s'.current_transactions = [] := by
  refine ⟨_, _, new_block_eq s proof now h, rfl, rfl, rfl, ?_, rfl⟩
  exact List.getLast?_concat _

/-- Witness for C7: committing the invalid proof 5 on a fresh chain still succeeds. -/
theorem new_block_no_validation_witness :
    valid_proof 100 5 = false ∧
    ∃ b s', (Blockchain.new 0).new_block 5 0 = some (b, s') ∧ b.proof = 5 ∧
      b.index = (Blockchain.new 0).chain.length ∧ s'.chain = (Blockchain.new 0).chain ++ [b] ∧
      s'.chain.getLast? = some b ∧ s'.current_transactions = [] :=
  ⟨by decide, new_block_no_validation (Blockchain.new 0) 5 0 (by decide)⟩

/-- Claim C8: on any densely indexed state, `new_transaction` appends one transfer to
the pool, leaves the chain alone, and returns the current chain length. -/
theorem new_transaction_spec (s : Blockchain) (sender recipient amount : String)
    (h1 : s.chain ≠ [])
    (h2 : ∀ i (hi : i < s.chain.length), s.chain[i].index = i) :
    s.new_transaction sender recipient amount =
      some (s.chain.length,
        ⟨s.chain, s.current_transactions ++ [⟨sender, recipient, amount⟩]⟩) := by
  rw [new_transaction_eq s sender recipient amount h1]
  have hlen : 0 < s.chain.length := List.length_pos.mpr h1
  have hidx : (s.chain.getLast h1).index = s.chain.length - 1 := by
    rw [List.getLast_eq_getElem]
    exact h2 _ (by omega)
  rw [hidx, Nat.sub_add_cancel hlen]

/-- Witness for C8 on a fresh chain. -/
theorem new_transaction_spec_witness :
    (Blockchain.new 0).new_transaction "0" "Alice" "1.0" =
      some ((Blockchain.new 0).chain.length,
        ⟨(Blockchain.new 0).chain, (Blockchain.new 0).current_transactions ++
          [⟨"0", "Alice", "1.0"⟩]⟩) :=
  new_transaction_spec (Blockchain.new 0) "0" "Alice" "1.0" (by decide) (by decide)

/-- Claim C5: queueing any list of transfers and then committing yields a block whose
transfers are the prior pool followed by exactly those transfers in order, and leaves
the pool empty afterwards. -/
theorem pool_move_semantics (s : Blockchain) (ts : List Transaction) (proof : Nat)
    (now : Int) (s' : Blockchain) (h : s.chain ≠ []) (hq : queueMany s ts = some s') :
    ∃ b s'', s'.new_block proof now = some (b, s'') ∧
      b.transactions = s.current_transactions ++ ts ∧ s''.current_transactions = [] := by
  obtain ⟨hchain, hpool⟩ := queueMany_chain_pool ts s s' hq
  have h' : s'.chain ≠ [] := by rw [hchain]; exact h
  refine ⟨_, _, new_block_eq s' proof now h', ?_, rfl⟩
  exact hpool

/-- Witness for C5: two transfers queued on a fresh chain land in the block in order. -/
theorem pool_move_semantics_witness :
    ∃ b s'', (⟨(Blockchain.new 0).chain,
        (Blockchain.new 0).current_transactions ++
          [⟨"a", "b", "1.0"⟩, ⟨"c", "d", "2.0"⟩]⟩ : Blockchain).new_block 7 3 =
        some (b, s'') ∧
      b.transactions = (Blockchain.new 0).current_transactions ++
        [⟨"a", "b", "1.0"⟩, ⟨"c", "d", "2.0"⟩] ∧
      s''.current_transactions = [] := by
  have := pool_move_semantics (Blockchain.new 0) [⟨"a", "b", "1.0"⟩, ⟨"c", "d", "2.0"⟩]
    7 3 ⟨(Blockchain.new 0).chain, (Blockchain.new 0).current_transactions ++
      [⟨"a", "b", "1.0"⟩, ⟨"c", "d", "2.0"⟩]⟩ (by decide) (by decide)
  exact this

/-! ## Digest shape lemmas -/

lemma bytesBE_length : ∀ n v, (bytesBE n v).length = n
  | 0, _ => rfl
  | n + 1, v => by simp [bytesBE, bytesBE_length n]

lemma bytesBE_lt : ∀ n v, ∀ b ∈ bytesBE n v, b < 256 := by
  intro n
  induction n with
  | zero => intro v b hb; simp [bytesBE] at hb
  | succ n ih =>
    intro v b hb
    simp only [bytesBE, List.mem_append, List.mem_singleton] at hb
    rcases hb with h | h
    · exact ih _ b h
    · rw [h]; exact Nat.mod_lt _ (by norm_num)

lemma sha256_length (msg : List Nat) : (sha256 msg).length = 32 := by
  simp [sha256, bytesBE_length]

lemma sha256_lt (msg : List Nat) : ∀ b ∈ sha256 msg, b < 256 := by
  intro b hb
  simp only [sha256, List.mem_append] at hb
  rcases hb with (((((((h | h) | h) | h) | h) | h) | h) | h) <;> exact bytesBE_lt _ _ b h

lemma hexOfBytes_length : ∀ bs, (hexOfBytes bs).length = 2 * bs.length
  | [] => rfl
  | b :: bs => by simp [hexOfBytes, hexOfBytes_length bs]; omega

lemma hexChar_mem_digits : ∀ n, n < 16 → hexChar n ∈ ("0123456789abcdef").data := by decide

lemma hexOfBytes_mem (bs : List Nat) : ∀ c ∈ hexOfBytes bs, c ∈ ("0123456789abcdef").data := by
  induction bs with
  | nil => intro c hc; simp [hexOfBytes] at hc
  | cons b bs ih =>
    intro c hc
    simp only [hexOfBytes, List.mem_cons] at hc
    rcases hc with h | h | h
    · exact h ▸ hexChar_mem_digits _ (Nat.mod_lt _ (by norm_num))
    · exact h ▸ hexChar_mem_digits _ (Nat.mod_lt _ (by norm_num))
    · exact ih c h

/-- Claim C9: `calculate_hash` yields a 64-character lowercase-hex string and is a pure
function of the block's five fields. -/
theorem calculate_hash_spec (b : Block) :
    b.calculate_hash.length = 64 ∧
    (∀ c ∈ b.calculate_hash.data, c ∈ ("0123456789abcdef").data) ∧
    (∀ b' : Block, b'.index = b.index → b'.timestamp = b.timestamp →
      b'.transactions = b.transactions → b'.proof = b.proof →
      b'.previous_hash = b.previous_hash → b'.calculate_hash = b.calculate_hash) := by
  refine ⟨?_, ?_, ?_⟩
  · show (hexOfBytes (sha256 (strBytes b.serialize))).length = 64
    rw [hexOfBytes_length, sha256_length]
  · exact hexOfBytes_mem _
  · intro b' h1 h2 h3 h4 h5
    have hb : b' = b := by
      cases b; cases b'
      simp_all
    rw [hb]

/-- Witness for C9 at the genesis block with clock reading 0. -/
theorem calculate_hash_spec_witness :
    (Block.new 0 0 [] 100 "0").calculate_hash.length = 64 ∧
    (∀ c ∈ (Block.new 0 0 [] 100 "0").calculate_hash.data, c ∈ ("0123456789abcdef").data) ∧
    (Block.new 0 0 [] 100 "0").calculate_hash = (Block.new 0 0 [] 100 "0").calculate_hash :=
  ⟨(calculate_hash_spec (Block.new 0 0 [] 100 "0")).1,
   (calculate_hash_spec (Block.new 0 0 [] 100 "0")).2.1,
   (calculate_hash_spec (Block.new 0 0 [] 100 "0")).2.2 (Block.new 0 0 [] 100 "0")
     rfl rfl rfl rfl rfl⟩

/-! ## The difficulty predicate in terms of digest bytes -/

lemma hexChar_eq_zero : ∀ n, n < 16 → (hexChar n = '0' ↔ n = 0) := by decide

lemma startsWith_hexStr (b0 b1 : Nat) (rest : List Nat) (h0 : b0 < 256) (h1 : b1 < 256) :
    (strStartsWith (hexStr (b0 :: b1 :: rest)) "0000" = true) ↔ (b0 = 0 ∧ b1 = 0) := by
  have hdata : ("0000" : String).data = ['0', '0', '0', '0'] := rfl
  show (List.isPrefixOf ("0000" : String).data
    (hexChar (b0 / 16 % 16) :: hexChar (b0 % 16) :: hexChar (b1 / 16 % 16) ::
      hexChar (b1 % 16) :: hexOfBytes rest) = true) ↔ _
  rw [hdata]
  simp only [List.isPrefixOf, Bool.and_eq_true, beq_iff_eq]
  constructor
  · rintro ⟨ha, hb, hc, hd, -⟩
    have e1 : b0 / 16 % 16 = 0 := (hexChar_eq_zero _ (Nat.mod_lt _ (by norm_num))).mp ha.symm
    have e2 : b0 % 16 = 0 := (hexChar_eq_zero _ (Nat.mod_lt _ (by norm_num))).mp hb.symm
    have e3 : b1 / 16 % 16 = 0 := (hexChar_eq_zero _ (Nat.mod_lt _ (by norm_num))).mp hc.symm
    have e4 : b1 % 16 = 0 := (hexChar_eq_zero _ (Nat.mod_lt _ (by norm_num))).mp hd.symm
    omega
  · rintro ⟨rfl, rfl⟩
    have hz : hexChar 0 = '0' := by decide
    simp [hz, List.isPrefixOf]

/-- Claim C3: `valid_proof` holds exactly when the hex rendering of the SHA-256 digest
of the concatenated decimal texts starts with four '0' characters, equivalently when
the digest's two leading bytes (its leading 16 bits) are zero. -/
theorem valid_proof_spec (last_proof proof : Nat) :
    (valid_proof last_proof proof = true ↔
      strStartsWith
        (hexStr (sha256 (strBytes (Nat.repr last_proof ++ Nat.repr proof)))) "0000" = true) ∧
    (valid_proof last_proof proof = true ↔
      (sha256 (strBytes (Nat.repr last_proof ++ Nat.repr proof))).take 2 = [0, 0]) := by
  refine ⟨Iff.rfl, ?_⟩
  show strStartsWith
    (hexStr (sha256 (strBytes (Nat.repr last_proof ++ Nat.repr proof)))) "0000" = true ↔ _
  have hlen := sha256_length (strBytes (Nat.repr last_proof ++ Nat.repr proof))
  have hlt := sha256_lt (strBytes (Nat.repr last_proof ++ Nat.repr proof))
  generalize hds : sha256 (strBytes (Nat.repr last_proof ++ Nat.repr proof)) = ds
  rw [hds] at hlen hlt
  obtain ⟨b0, b1, rest, rfl⟩ : ∃ b0 b1 rest, ds = b0 :: b1 :: rest := by
    cases ds with
    | nil => simp at hlen
    | cons a t =>
      cases t with
      | nil => simp at hlen
      | cons b r => exact ⟨a, b, r, rfl⟩
  rw [startsWith_hexStr b0 b1 rest (hlt b0 (by simp)) (hlt b1 (by simp))]
  simp

/-! ## Proof-of-work search -/

lemma pow_loop_finds (last_proof p : Nat) (hp : valid_proof last_proof p = true)
    (hmin : ∀ q, q < p → valid_proof last_proof q = false) :
    ∀ fuel start, start ≤ p → p < start + fuel → pow_loop last_proof fuel start = some p := by
  intro fuel
  induction fuel with
  | zero => intro start h1 h2; omega
  | succ fuel ih =>
    intro start h1 h2
    by_cases hv : valid_proof last_proof start = true
    · have heq : start = p := by
        by_contra hne
        have hlt : start < p := by omega
        rw [hmin start hlt] at hv
        cases hv
      subst heq
      simp [pow_loop, hv]
    · have hlt : start < p := by
        rcases Nat.lt_or_ge start p with h | h
        · exact h
        · have : start = p := by omega
          rw [this] at hv
          exact absurd hp hv
      have : pow_loop last_proof (fuel + 1) start = pow_loop last_proof fuel (start + 1) := by
        simp [pow_loop, hv]
      rw [this]
      exact ih (start + 1) (by omega) (by omega)

/-- Claim C4: if any candidate is accepted for a given `last_proof`, the
`proof_of_work` loop terminates (any fuel beyond that candidate suffices) and its
result is the least accepted candidate. -/
theorem proof_of_work_spec (last_proof c : Nat) (hc : valid_proof last_proof c = true) :
    ∃ p, p ≤ c ∧ valid_proof last_proof p = true ∧
      (∀ q, q < p → valid_proof last_proof q = false) ∧
      ∀ fuel, c < fuel → proof_of_work last_proof fuel = some p := by
  have hex : ∃ p, valid_proof last_proof p = true := ⟨c, hc⟩
  have hmin : ∀ q, q < Nat.find hex → valid_proof last_proof q = false := by
    intro q hq
    have := Nat.find_min hex hq
    simpa using this
  refine ⟨Nat.find hex, Nat.find_min' hex hc, Nat.find_spec hex, hmin, ?_⟩
  intro fuel hf
  have hle : Nat.find hex ≤ c := Nat.find_min' hex hc
  exact pow_loop_finds last_proof (Nat.find hex) (Nat.find_spec hex) hmin fuel 0
    (by omega) (by omega)

/-- Witness for C4: 35293 is accepted for last proof 100, so the search terminates
with the least accepted candidate. -/
theorem proof_of_work_spec_witness :
    valid_proof 100 35293 = true ∧
    ∃ p, p ≤ 35293 ∧ valid_proof 100 p = true ∧
      (∀ q, q < p → valid_proof 100 q = false) ∧
      ∀ fuel, 35293 < fuel → proof_of_work 100 fuel = some p :=
  ⟨by decide, proof_of_work_spec 100 35293 (by decide)⟩

/-! ## Reachability invariants -/

/-- The chain invariant: nonempty, densely indexed from zero, and hash-chained. -/
def ChainInv (ch : List Block) : Prop :=
  ch ≠ [] ∧
  (∀ i (hi : i < ch.length), ch[i].index = i) ∧
  (∀ i (hi : i < ch.length) (hi1 : i - 1 < ch.length), 1 ≤ i →
    ch[i].previous_hash = ch[i - 1].calculate_hash)

lemma reachable_chainInv {s : Blockchain} (h : Reachable s) : ChainInv s.chain := by
  induction h with
  | init now =>
    refine ⟨by simp [Blockchain.new], ?_, ?_⟩
    · intro i hi
      have hlen : i < 1 := by simpa [Blockchain.new] using hi
      have h0 : i = 0 := by omega
      subst h0
      rfl
    · intro i hi hi1 h1i
      have hlen : i < 1 := by simpa [Blockchain.new] using hi
      omega
  | @tx t sender recipient amount n t' h heq ih =>
    obtain ⟨hc, -⟩ := new_transaction_some _ _ _ _ _ _ heq
    rw [hc]
    exact ih
  | @blk t proof now b t' h heq ih =>
    obtain ⟨last, hg, hb, hs⟩ := new_block_some _ _ _ _ _ heq
    obtain ⟨h1, h2, h3⟩ := ih
    rw [hs]
    have hpos : 0 < t.chain.length := List.length_pos.mpr h1
    have hlast : last = t.chain.getLast h1 := by
      rw [List.getLast?_eq_getLast_of_ne_nil h1] at hg
      injection hg with hlg
      exact hlg.symm
    refine ⟨by simp, ?_, ?_⟩
    · intro i hi
      simp only [List.length_append, List.length_singleton] at hi
      rcases Nat.lt_or_ge i t.chain.length with hlt | hge
      · rw [List.getElem_append_left hlt]
        exact h2 i hlt
      · have hieq : i = t.chain.length := by omega
        subst hieq
        rw [List.getElem_concat_length t.chain _ _ rfl]
        rw [hb]
        rfl
    · intro i hi hi1 h1i
      simp only [List.length_append, List.length_singleton] at hi hi1
      rcases Nat.lt_or_ge i t.chain.length with hlt | hge
      · have e1 : i - 1 < t.chain.length := by omega
        rw [List.getElem_append_left hlt, List.getElem_append_left e1]
        exact h3 i hlt e1 h1i
      · have hieq : i = t.chain.length := by omega
        subst hieq
        rw [List.getElem_concat_length t.chain _ _ rfl]
        have e1 : t.chain.length - 1 < t.chain.length := by omega
        rw [List.getElem_append_left e1]
        rw [hb, hlast, List.getLast_eq_getElem]
        rfl

/-- Claim C6: every reachable state has a nonempty chain whose block at each position
`i` carries index `i`. -/
theorem chain_nonempty_dense (s : Blockchain) (hr : Reachable s) :
    s.chain ≠ [] ∧ ∀ i (hi : i < s.chain.length), s.chain[i].index = i := by
  have h := reachable_chainInv hr
  unfold ChainInv at h
  exact ⟨h.1, h.2.1⟩

/-- Witness for C6 at a fresh state. -/
theorem chain_nonempty_dense_witness :
    (Blockchain.new 0).chain ≠ [] ∧
      ∀ i (hi : i < (Blockchain.new 0).chain.length), (Blockchain.new 0).chain[i].index = i :=
  chain_nonempty_dense (Blockchain.new 0) (Reachable.init 0)

/-- Claim C1: in every reachable state, each non-genesis block's `previous_hash` is
the digest of its predecessor. -/
theorem hash_chaining (s : Blockchain) (hr : Reachable s) (i : Nat) (h1 : 1 ≤ i)
    (h2 : i < s.chain.length) (h3 : i - 1 < s.chain.length) :
    s.chain[i].previous_hash = s.chain[i - 1].calculate_hash := by
  have h := reachable_chainInv hr
  unfold ChainInv at h
  exact h.2.2 i h2 h3 h1

/-- The block committed by `new_block 1` at clock reading 0 on a fresh chain. -/
def blockW : Block :=
  ⟨1, 0, [], 1, "ad41b95e80e0b3f02fb185a431de4c0f72fcbcf16208fc2189697a84ca51e794"⟩

/-- The two-block state that the commit reaches from a fresh chain. -/
def chainW : Blockchain :=
  ⟨[⟨0, 0, [], 100, "0"⟩, blockW], []⟩

set_option maxRecDepth 100000 in
/-- Witness for C1 on the two-block reachable state `chainW`. -/
theorem hash_chaining_witness :
    (chainW.chain.get ⟨1, by decide⟩).previous_hash =
      (chainW.chain.get ⟨0, by decide⟩).calculate_hash := by
  have hr : Reachable chainW :=
    Reachable.blk 1 0 (Reachable.init 0)
      (show (Blockchain.new 0).new_block 1 0 = some (blockW, chainW) by decide)
  have h := hash_chaining chainW hr 1 (by decide) (by decide) (by decide)
  simpa [List.get_eq_getElem] using h
